import Mathlib

/-!
bookforge, `assets/js/script.js`.

A shallow embedding of the theme script: the cookie accessor `getCookie`, the
page `load` handler and the `change` handler of the `#changeTheme` control.

JavaScript strings are modelled as lists of characters.  The script only ever
splits on `"; "` and `"="` and compares prefixes, all of which act position by
position, so the result does not depend on how a character outside the ASCII
range is encoded.  The global `document.cookie` and the DOM are passed
explicitly as a state record; the elements `html` and `#changeTheme` are taken
to exist, and `value` of `#changeTheme` to be a plain string property.  What
the browser does with a string assigned to `document.cookie` is not part of
the script: assignments are recorded, and a later cookie string is an input.
-/

namespace Bookforge

/-- A JavaScript string value. -/
abbrev Str := List Char

/-- `String.prototype.startsWith`: `s.startsWith(p)`. -/
def startsWith (s p : Str) : Bool := p.isPrefixOf s

/-- Scanner behind `String.prototype.split` for a non-empty separator `sep`.
It walks the remaining text; `skip` counts the characters of a separator
occurrence that were matched and are still to be passed over, and `cur` holds
(reversed) the characters of the piece being built.  At every position outside
a matched occurrence the separator is looked for, leftmost first, so the pieces
are cut at the successive non-overlapping occurrences found from the left. -/
def splitGo (sep : Str) : Str → Nat → Str → List Str
  | [], _, cur => [cur.reverse]
  | _ :: rest, skip + 1, cur => splitGo sep rest skip cur
  | c :: rest, 0, cur =>
    if sep.isPrefixOf (c :: rest) then
      cur.reverse :: splitGo sep rest (sep.length - 1) []
    else
      splitGo sep rest 0 (c :: cur)

/-- `String.prototype.split`: `s.split(sep)` without a limit.  With the empty
separator, which the script never passes, the string is cut into its single
characters. -/
def split (s sep : Str) : List Str :=
  match sep with
  | [] => s.map fun c => [c]
  | _ :: _ => splitGo sep s 0 []

/-- The rows of the cookie string: `document.cookie.split("; ")`. -/
def cookieRows (cookie : Str) : List Str := split cookie "; ".toList

/-- The row picked by `.find(row => row.startsWith(name + "="))`; `none` is
JavaScript's `undefined`. -/
def findRow (cookie name : Str) : Option Str :=
  (cookieRows cookie).find? fun row => startsWith row (name ++ "=".toList)

/-- The function `getCookie(name)`, reading the cookie string `cookie` that
`document.cookie` returns.  `none` is `undefined`: either no row was found
(`?.` short-circuits) or index `1` is past the end of the array. -/
def getCookie (cookie name : Str) : Option Str :=
  match findRow cookie name with
  | none => none
  | some row => (split row "=".toList)[1]?

/-- The constant `DEFAULT_THEME`. -/
def DEFAULT_THEME : Str := "light".toList

/-- The part of the browser state the script touches. -/
structure Page where
  /-- The string `document.cookie` evaluates to. -/
  cookie : Str
  /-- The strings assigned to `document.cookie`, oldest first. -/
  cookieWrites : List Str
  /-- The attribute `data-bs-theme` of the `html` element (`none`: not set). -/
  dataBsTheme : Option Str
  /-- The `value` of the `#changeTheme` control. -/
  changeThemeValue : Str
  deriving DecidableEq, Repr

/-- JavaScript truthiness of `string | undefined`: only `undefined` and the
empty string are falsy. -/
def truthy : Option Str → Bool
  | none => false
  | some [] => false
  | some (_ :: _) => true

/-- The listener registered for the window's `load` event. -/
def loadHandler (st : Page) : Page :=
  match getCookie st.cookie "theme".toList with
  | some theme =>
    if truthy (some theme) then
      { st with dataBsTheme := some theme, changeThemeValue := theme }
    else
      { st with dataBsTheme := some DEFAULT_THEME }
  | none => { st with dataBsTheme := some DEFAULT_THEME }

/-- The listener registered for the `change` event of `#changeTheme`; the
event target is the control, so `e.target.value` is its value. -/
def changeHandler (st : Page) : Page :=
  { st with
    cookieWrites := st.cookieWrites ++
      ["theme=".toList ++ st.changeThemeValue ++ "; path=/; max-age=31536000".toList]
    dataBsTheme := some st.changeThemeValue }

/-! The cookie strings the claims speak about -/

/-- The text of one cookie, `n=v`. -/
def renderEntry (e : Str × Str) : Str := e.1 ++ "=".toList ++ e.2

/-- Rows joined with `"; "`, the way the browser lists the cookies. -/
def joinRows : List Str → Str
  | [] => []
  | [r] => r
  | r :: r' :: rs => r ++ "; ".toList ++ joinRows (r' :: rs)

/-- The cookie string that lists the cookies `es` (pairs of name and value). -/
def cookieString (es : List (Str × Str)) : Str := joinRows (es.map renderEntry)

/-- The text of a row strictly between its first `=` and its second `=`, or up
to the end of the row when there is no second `=`. -/
def betweenEquals (row : Str) : Str :=
  ((row.dropWhile fun c => c != '=').drop 1).takeWhile fun c => c != '='

/-- `row` is the first row of the cookie string that starts with `name=`. -/
def isFirstRow (cookie name row : Str) : Prop :=
  ∃ pre post, cookieRows cookie = pre ++ row :: post ∧
    (∀ r ∈ pre, startsWith r (name ++ "=".toList) = false) ∧
    startsWith row (name ++ "=".toList) = true

/-- The state after the browser has updated what `document.cookie` reads as. -/
def withCookie (st : Page) (cookie : Str) : Page := { st with cookie := cookie }

/-! Facts about `split` -/

theorem splitGo_ne_nil (sep : Str) (s : Str) (k : Nat) (cur : Str) :
    splitGo sep s k cur ≠ [] := by
  induction s generalizing k cur with
  | nil => simp [splitGo]
  | cons c rest ih =>
    cases k with
    | succ k => simpa [splitGo] using ih k cur
    | zero =>
      by_cases h : sep.isPrefixOf (c :: rest)
      · simp [splitGo, h]
      · simpa [splitGo, h] using ih 0 (c :: cur)

theorem splitGo_skip (sep a rest cur : Str) :
    splitGo sep (a ++ rest) a.length cur = splitGo sep rest 0 cur := by
  induction a with
  | nil => simp
  | cons c a ih => simpa [splitGo] using ih

theorem not_isPrefixOf_of_head_ne (d c : Char) (ds rest : Str) (h : c ≠ d) :
    (d :: ds).isPrefixOf (c :: rest) = false := by
  simp [List.isPrefixOf, Ne.symm h]

theorem isPrefixOf_append_self (a b : Str) : a.isPrefixOf (a ++ b) = true := by
  induction a with
  | nil => simp [List.isPrefixOf]
  | cons c a ih => simp [List.isPrefixOf, ih]

/-- A piece free of the separator's first character is cut off whole at the
separator that follows it. -/
theorem splitGo_piece (d : Char) (ds e rest cur : Str) (he : d ∉ e) :
    splitGo (d :: ds) (e ++ (d :: ds) ++ rest) 0 cur
      = (cur.reverse ++ e) :: splitGo (d :: ds) rest 0 [] := by
  induction e generalizing cur with
  | nil =>
    have hp : (d :: ds).isPrefixOf (d :: (ds ++ rest)) = true := by
      simp [List.isPrefixOf, isPrefixOf_append_self ds rest]
    have hs := splitGo_skip (d :: ds) ds rest []
    simp [splitGo, hp, hs]
  | cons c e ih =>
    have hc : c ≠ d := fun h => he (by simp [h])
    have he' : d ∉ e := fun h => he (by simp [h])
    have hp := not_isPrefixOf_of_head_ne d c ds (e ++ (d :: ds) ++ rest) hc
    have := ih (c :: cur) he'
    simp only [List.cons_append, List.append_assoc] at hp this ⊢
    simp [splitGo, hp, this]

/-- A text free of the separator's first character is a single piece. -/
theorem splitGo_last (d : Char) (ds e cur : Str) (he : d ∉ e) :
    splitGo (d :: ds) e 0 cur = [cur.reverse ++ e] := by
  induction e generalizing cur with
  | nil => simp [splitGo]
  | cons c e ih =>
    have hc : c ≠ d := fun h => he (by simp [h])
    have he' : d ∉ e := fun h => he (by simp [h])
    have hp := not_isPrefixOf_of_head_ne d c ds e hc
    simp [splitGo, hp, ih (c :: cur) he']

/-- A text in which the separator occurs is cut into at least two pieces. -/
theorem splitGo_length_of_occurs (d : Char) (ds a b cur : Str) :
    2 ≤ (splitGo (d :: ds) (a ++ (d :: ds) ++ b) 0 cur).length := by
  induction a generalizing cur with
  | nil =>
    have hp : (d :: ds).isPrefixOf (d :: (ds ++ b)) = true := by
      simp [List.isPrefixOf, isPrefixOf_append_self ds b]
    have hne := splitGo_ne_nil (d :: ds) (ds ++ b) ds.length []
    have hpos := List.length_pos.mpr hne
    simp [splitGo, hp]
    omega
  | cons c a ih =>
    by_cases hp : (d :: ds).isPrefixOf (c :: (a ++ (d :: ds) ++ b))
    · have hne := splitGo_ne_nil (d :: ds) (a ++ (d :: ds) ++ b) ds.length []
      have hpos := List.length_pos.mpr hne
      simp only [List.cons_append, List.append_assoc] at hp hpos ⊢
      simp [splitGo, hp]
      omega
    · have := ih (c :: cur)
      simp only [List.cons_append, List.append_assoc] at hp this ⊢
      simpa [splitGo, hp] using this

/-- With a one-character separator the first piece is the text before the
first occurrence of that character. -/
theorem splitGo_head_single (d : Char) (t cur : Str) :
    (splitGo [d] t 0 cur)[0]? = some (cur.reverse ++ t.takeWhile fun c => c != d) := by
  induction t generalizing cur with
  | nil => simp [splitGo]
  | cons c t ih =>
    by_cases hc : c = d
    · subst hc
      simp [splitGo, List.isPrefixOf, List.takeWhile]
    · have hp := not_isPrefixOf_of_head_ne d c [] t hc
      have hb : (c != d) = true := by simpa using hc
      simp [splitGo, hp, ih (c :: cur), List.takeWhile, hb]

/-! Facts about the rows of a cookie string -/

theorem cookieRows_nil : cookieRows [] = [[]] := by decide

theorem cookieRows_eq (cookie : Str) :
    cookieRows cookie = splitGo [';', ' '] cookie 0 [] := rfl

theorem cookieRows_joinRows (rows : List Str) (hne : rows ≠ [])
    (hrows : ∀ r ∈ rows, ';' ∉ r) : cookieRows (joinRows rows) = rows := by
  induction rows with
  | nil => exact absurd rfl hne
  | cons r rs ih =>
    have hr : ';' ∉ r := hrows r (by simp)
    cases rs with
    | nil =>
      have := splitGo_last ';' [' '] r [] hr
      simpa [cookieRows, split, joinRows] using this
    | cons r' rs =>
      have ih' := ih (by simp) (fun x hx => hrows x (List.mem_cons_of_mem _ hx))
      have := splitGo_piece ';' [' '] r (joinRows (r' :: rs)) [] hr
      rw [cookieRows_eq] at ih' ⊢
      simp only [joinRows]
      have e : "; ".toList = [';', ' '] := rfl
      rw [e, this, ih']
      simp

theorem startsWith_iff (s p : Str) : startsWith s p = true ↔ ∃ t, s = p ++ t := by
  unfold startsWith
  rw [List.isPrefixOf_iff_prefix]
  constructor
  · rintro ⟨t, ht⟩
    exact ⟨t, ht.symm⟩
  · rintro ⟨t, ht⟩
    exact ⟨t, ht.symm⟩

/-- Two texts that continue with `=` and have no `=` before it start alike
exactly when the parts before the `=` are equal. -/
theorem startsWith_name (n name v : Str) (hn : '=' ∉ n) (hname : '=' ∉ name) :
    startsWith (n ++ "=".toList ++ v) (name ++ "=".toList) = decide (n = name) := by
  unfold startsWith
  have e : "=".toList = ['='] := rfl
  rw [e]
  induction name generalizing n with
  | nil =>
    cases n with
    | nil => simp [List.isPrefixOf]
    | cons c n =>
      have hc : c ≠ '=' := fun h => hn (by simp [h])
      have e : "=".toList = ['='] := rfl
      simp [List.isPrefixOf, e, Ne.symm hc]
  | cons a name ih =>
    have ha : a ≠ '=' := fun h => hname (by simp [h])
    have hname' : '=' ∉ name := fun h => hname (by simp [h])
    cases n with
    | nil =>
      have e : "=".toList = ['='] := rfl
      simp [List.isPrefixOf, e, ha]
    | cons c n =>
      have hn' : '=' ∉ n := fun h => hn (by simp [h])
      have := ih n hn' hname'
      simp only [List.cons_append, List.isPrefixOf] at this ⊢
      by_cases hac : a = c
      · subst hac
        simpa using this
      · have hca : ¬ c = a := fun h => hac h.symm
        simp [hac, hca]

/-- Index `1` of `row.split("=")` for a row `n=tail` whose `n` has no `=`. -/
theorem split_row_index_one (n tail : Str) (hn : '=' ∉ n) :
    (split (n ++ "=".toList ++ tail) "=".toList)[1]?
      = some (tail.takeWhile fun c => c != '=') := by
  have e : "=".toList = ['='] := rfl
  have h1 := splitGo_piece '=' [] n tail [] hn
  have h2 := splitGo_head_single '=' tail []
  rw [e]
  simp only [split]
  rw [h1]
  simpa using h2

theorem betweenEquals_row (n tail : Str) (hn : '=' ∉ n) :
    betweenEquals (n ++ "=".toList ++ tail) = tail.takeWhile fun c => c != '=' := by
  have e : "=".toList = ['='] := rfl
  unfold betweenEquals
  rw [e]
  have : (n ++ ['='] ++ tail).dropWhile (fun c => c != '=') = '=' :: tail := by
    induction n with
    | nil => simp [List.dropWhile]
    | cons c n ih =>
      have hc : c ≠ '=' := fun h => hn (by simp [h])
      have hn' : '=' ∉ n := fun h => hn (by simp [h])
      have hb : (c != '=') = true := by simpa using hc
      simp only [List.cons_append, List.dropWhile, hb]
      exact ih hn'
  rw [this]
  simp

theorem takeWhile_of_not_mem (d : Char) (v : Str) (hv : d ∉ v) :
    (v.takeWhile fun c => c != d) = v := by
  induction v with
  | nil => rfl
  | cons c v ih =>
    have hc : c ≠ d := fun h => hv (by simp [h])
    have hv' : d ∉ v := fun h => hv (by simp [h])
    have hb : (c != d) = true := by simpa using hc
    simp [List.takeWhile, hb, ih hv']

/-- The row found for `name` begins with `name=`. -/
theorem findRow_some (cookie name row : Str) (h : findRow cookie name = some row) :
    ∃ tail, row = name ++ "=".toList ++ tail := by
  unfold findRow at h
  have := List.find?_some h
  exact (startsWith_iff _ _).mp this

/-- Whenever a row is found, index `1` of its split on `=` is in bounds. -/
theorem split_found_length (cookie name row : Str) (h : findRow cookie name = some row) :
    2 ≤ (split row "=".toList).length := by
  obtain ⟨tail, rfl⟩ := findRow_some cookie name row h
  have e : "=".toList = ['='] := rfl
  rw [e]
  simpa [split] using splitGo_length_of_occurs '=' [] name tail []

/-- What `getCookie` gives on a cookie string listing well-formed cookies: the
value of the first cookie called `name`, cut before its first `=`. -/
theorem getCookie_cookieString (es : List (Str × Str)) (name : Str)
    (hes : ∀ e ∈ es, '=' ∉ e.1 ∧ ';' ∉ e.1 ∧ ';' ∉ e.2) (hname : '=' ∉ name) :
    getCookie (cookieString es) name
      = (es.find? fun e => decide (e.1 = name)).map
          fun e => e.2.takeWhile fun c => c != '=' := by
  have e1 : "=".toList = ['='] := rfl
  by_cases hnil : es = []
  · subst hnil
    simp [cookieString, joinRows, getCookie, findRow, cookieRows_nil, startsWith, e1,
      List.isPrefixOf]
  · have hrows : ∀ r ∈ es.map renderEntry, ';' ∉ r := by
      intro r hr
      obtain ⟨e, he, rfl⟩ := List.mem_map.mp hr
      obtain ⟨_, h1, h2⟩ := hes e he
      simp [renderEntry, e1, h1, h2]
    have hcr := cookieRows_joinRows (es.map renderEntry) (by simpa using hnil) hrows
    have hfind : findRow (cookieString es) name
        = (es.find? fun e => decide (e.1 = name)).map renderEntry := by
      unfold findRow cookieString
      rw [hcr]
      clear hcr hrows hnil
      induction es with
      | nil => rfl
      | cons e es ih =>
        have hs := startsWith_name e.1 name e.2 (hes e (by simp)).1 hname
        have ih' := ih (fun x hx => hes x (List.mem_cons_of_mem _ hx))
        simp only [List.map_cons, List.find?_cons]
        have hs' : startsWith (renderEntry e) (name ++ "=".toList) = decide (e.1 = name) := hs
        rw [hs']
        by_cases hd : e.1 = name
        · simp [hd]
        · rw [decide_eq_false hd]
          simpa using ih'
    unfold getCookie
    rw [hfind]
    cases hf : es.find? fun e => decide (e.1 = name) with
    | none => rfl
    | some e =>
      have he := List.mem_of_find?_eq_some hf
      simpa [renderEntry] using split_row_index_one e.1 e.2 (hes e he).1

theorem findRow_of_isFirstRow (cookie name row : Str) (h : isFirstRow cookie name row) :
    findRow cookie name = some row := by
  obtain ⟨pre, post, hrows, hpre, hrow⟩ := h
  unfold findRow
  rw [hrows, List.find?_append]
  have hnone : pre.find? (fun r => startsWith r (name ++ "=".toList)) = none := by
    rw [List.find?_eq_none]
    intro r hr
    rw [hpre r hr]
    exact Bool.false_ne_true
  rw [hnone, List.find?_cons, hrow]
  rfl

theorem findRow_none (cookie name : Str)
    (h : ∀ r ∈ cookieRows cookie, startsWith r (name ++ "=".toList) = false) :
    findRow cookie name = none := by
  unfold findRow
  rw [List.find?_eq_none]
  intro r hr
  rw [h r hr]
  exact Bool.false_ne_true

theorem isFirstRow_of_findRow (cookie name row : Str) (h : findRow cookie name = some row) :
    isFirstRow cookie name row := by
  unfold findRow at h
  obtain ⟨hrow, pre, post, hrows, hpre⟩ := List.find?_eq_some.mp h
  refine ⟨pre, post, hrows, ?_, hrow⟩
  intro r hr
  have := hpre r hr
  simpa using this

theorem findRow_exists (cookie name : Str)
    (h : ∃ r ∈ cookieRows cookie, startsWith r (name ++ "=".toList) = true) :
    ∃ row, findRow cookie name = some row := by
  have : (findRow cookie name).isSome = true := by
    unfold findRow
    rw [List.find?_isSome]
    exact h
  exact Option.isSome_iff_exists.mp this

/-- Entries of other names, put in at any place, do not change which entries
are called `name`. -/
theorem filter_name_insert (l₁ ins l₂ : List (Str × Str)) (name : Str)
    (hins : ∀ e ∈ ins, e.1 ≠ name) :
    (l₁ ++ ins ++ l₂).filter (fun e => decide (e.1 = name))
      = (l₁ ++ l₂).filter (fun e => decide (e.1 = name)) := by
  have : ins.filter (fun e => decide (e.1 = name)) = [] := by
    rw [List.filter_eq_nil_iff]
    intro e he
    simpa using hins e he
  simp [List.filter_append, this]

/-- The value read back for a first row `name=v` with no `=` in `name`. -/
theorem getCookie_of_isFirstRow (cookie name v : Str) (hname : '=' ∉ name)
    (h : isFirstRow cookie name (name ++ "=".toList ++ v)) :
    getCookie cookie name = some (v.takeWhile fun c => c != '=') := by
  unfold getCookie
  rw [findRow_of_isFirstRow cookie name _ h]
  exact split_row_index_one name v hname

/-! Facts about the handlers -/

theorem loadHandler_of_value (st : Page) (c : Char) (v : Str)
    (h : getCookie st.cookie "theme".toList = some (c :: v)) :
    loadHandler st = { st with dataBsTheme := some (c :: v), changeThemeValue := c :: v } := by
  unfold loadHandler
  rw [h]
  rfl

theorem loadHandler_of_empty (st : Page)
    (h : getCookie st.cookie "theme".toList = some []) :
    loadHandler st = { st with dataBsTheme := some DEFAULT_THEME } := by
  unfold loadHandler
  rw [h]
  rfl

theorem loadHandler_of_none (st : Page)
    (h : getCookie st.cookie "theme".toList = none) :
    loadHandler st = { st with dataBsTheme := some DEFAULT_THEME } := by
  unfold loadHandler
  rw [h]

theorem theme_no_equals : '=' ∉ "theme".toList := by decide

/-- The load handler applies a non-empty theme value without `=` that the first
`theme=` row carries. -/
theorem loadHandler_of_isFirstRow (st : Page) (v : Str) (hv : v ≠ []) (heq : '=' ∉ v)
    (hrow : isFirstRow st.cookie "theme".toList ("theme=".toList ++ v)) :
    loadHandler st = { st with dataBsTheme := some v, changeThemeValue := v } := by
  have hg := getCookie_of_isFirstRow st.cookie "theme".toList v theme_no_equals hrow
  rw [takeWhile_of_not_mem '=' v heq] at hg
  cases v with
  | nil => exact absurd rfl hv
  | cons c v => exact loadHandler_of_value st c v hg

/-! The claims -/

/-- C1 (the code departs from the claim): on the cookie string built from the
single entry with name `theme` and value `a=b`, a value without `;`,
`getCookie("theme")` returns `a`, not the full value `a=b`. -/
theorem getCookie_value_with_equals_cut :
    cookieString [("theme".toList, "a=b".toList)] = "theme=a=b".toList ∧
    ';' ∉ "a=b".toList ∧
    getCookie (cookieString [("theme".toList, "a=b".toList)]) "theme".toList
      = some "a".toList ∧
    getCookie (cookieString [("theme".toList, "a=b".toList)]) "theme".toList
      ≠ some "a=b".toList := by
  decide

/-- C2 as stated fails: the cookie string `theme=` contains the entry `theme=v`
for the empty value `v`, yet after the load handler the attribute is `light`,
not `v`, and the control keeps its earlier value `dark`. -/
theorem loadHandler_empty_theme_not_applied :
    ("theme=".toList ++ []) ∈ cookieRows "theme=".toList ∧
    (loadHandler ⟨"theme=".toList, [], none, "dark".toList⟩).dataBsTheme
      = some "light".toList ∧
    (loadHandler ⟨"theme=".toList, [], none, "dark".toList⟩).changeThemeValue
      = "dark".toList ∧
    ¬ (∀ (st : Page) (v : Str), ("theme=".toList ++ v) ∈ cookieRows st.cookie →
        (loadHandler st).dataBsTheme = some v ∧ (loadHandler st).changeThemeValue = v) := by
  refine ⟨by decide, by decide, by decide, ?_⟩
  intro h
  have h' := h ⟨"theme=".toList, [], none, "dark".toList⟩ [] (by decide)
  revert h'
  decide

/-- C2 amended: for every non-empty theme value `v` without `=`, when the first
row of the cookie string that starts with `theme=` is `theme=v`, the load
handler sets the attribute `data-bs-theme` to `v` and the value of
`#changeTheme` to `v`, unchanged and unvalidated, and touches nothing else. -/
theorem loadHandler_applies_theme_cookie (st : Page) (v : Str) (hv : v ≠ [])
    (heq : '=' ∉ v)
    (hrow : isFirstRow st.cookie "theme".toList ("theme=".toList ++ v)) :
    (loadHandler st).dataBsTheme = some v ∧ (loadHandler st).changeThemeValue = v ∧
    (loadHandler st).cookie = st.cookie ∧
    (loadHandler st).cookieWrites = st.cookieWrites := by
  rw [loadHandler_of_isFirstRow st v hv heq hrow]
  exact ⟨rfl, rfl, rfl, rfl⟩

/-- C2 at the cookie `theme=dark`: attribute `dark` and control value `dark`. -/
theorem loadHandler_applies_theme_cookie_witness :
    "dark".toList ≠ [] ∧ '=' ∉ "dark".toList ∧
    isFirstRow "theme=dark".toList "theme".toList ("theme=".toList ++ "dark".toList) ∧
    (loadHandler ⟨"theme=dark".toList, [], none, "light".toList⟩).dataBsTheme
      = some "dark".toList ∧
    (loadHandler ⟨"theme=dark".toList, [], none, "light".toList⟩).changeThemeValue
      = "dark".toList :=
  have hrow : isFirstRow "theme=dark".toList "theme".toList
      ("theme=".toList ++ "dark".toList) :=
    ⟨[], [], by decide, by simp, by decide⟩
  have h := loadHandler_applies_theme_cookie
    ⟨"theme=dark".toList, [], none, "light".toList⟩ "dark".toList (by decide) (by decide) hrow
  ⟨by decide, by decide, hrow, h.1, h.2.1⟩

/-- C3 as stated fails: with the empty control value the change handler writes
`theme=; path=/; max-age=31536000` and sets the attribute to the empty string;
the cookie string then holds the entry `theme=`, and the load handler sets the
attribute to `light`, which is not the empty value. -/
theorem load_after_change_empty_value :
    (changeHandler ⟨[], [], none, []⟩).cookieWrites
      = ["theme=; path=/; max-age=31536000".toList] ∧
    (changeHandler ⟨[], [], none, []⟩).dataBsTheme = some [] ∧
    ("theme=".toList ++ []) ∈ cookieRows "theme=".toList ∧
    (loadHandler (withCookie (changeHandler ⟨[], [], none, []⟩) "theme=".toList)).dataBsTheme
      = some "light".toList ∧
    (loadHandler (withCookie (changeHandler ⟨[], [], none, []⟩) "theme=".toList)).dataBsTheme
      ≠ some [] := by
  decide

/-- C3 amended: for every non-empty control value `v` without `=`, after the
change handler has run and the cookie string has come to hold `theme=v` as its
first row starting with `theme=`, the load handler sets the attribute
`data-bs-theme` to `v`, the theme the change handler applied. -/
theorem load_after_change_same_theme (st : Page) (v cookie : Str)
    (hval : st.changeThemeValue = v) (hv : v ≠ []) (heq : '=' ∉ v)
    (hrow : isFirstRow cookie "theme".toList ("theme=".toList ++ v)) :
    (changeHandler st).cookieWrites = st.cookieWrites ++
      ["theme=".toList ++ v ++ "; path=/; max-age=31536000".toList] ∧
    (changeHandler st).dataBsTheme = some v ∧
    (loadHandler (withCookie (changeHandler st) cookie)).dataBsTheme = some v := by
  subst hval
  refine ⟨rfl, rfl, ?_⟩
  rw [loadHandler_of_isFirstRow (withCookie (changeHandler st) cookie) st.changeThemeValue
    hv heq hrow]

/-- C3 at the control value `dark`. -/
theorem load_after_change_same_theme_witness :
    (loadHandler (withCookie (changeHandler ⟨[], [], none, "dark".toList⟩)
      "theme=dark".toList)).dataBsTheme = some "dark".toList :=
  (load_after_change_same_theme ⟨[], [], none, "dark".toList⟩ "dark".toList
    "theme=dark".toList rfl (by decide) (by decide)
    ⟨[], [], by decide, by simp, by decide⟩).2.2

/-- C4: when no row of the cookie string starts with `theme=`, the load handler
sets the attribute `data-bs-theme` to `DEFAULT_THEME`, which is `light`. -/
theorem loadHandler_default_without_theme (st : Page)
    (h : ∀ r ∈ cookieRows st.cookie, startsWith r "theme=".toList = false) :
    (loadHandler st).dataBsTheme = some DEFAULT_THEME ∧
    DEFAULT_THEME = "light".toList := by
  have hf := findRow_none st.cookie "theme".toList h
  have hg : getCookie st.cookie "theme".toList = none := by
    unfold getCookie
    rw [hf]
  rw [loadHandler_of_none st hg]
  exact ⟨rfl, rfl⟩

/-- C4 at the empty cookie string. -/
theorem loadHandler_default_without_theme_witness :
    (∀ r ∈ cookieRows [], startsWith r "theme=".toList = false) ∧
    (loadHandler ⟨[], [], none, "dark".toList⟩).dataBsTheme = some "light".toList :=
  ⟨by decide,
   (loadHandler_default_without_theme ⟨[], [], none, "dark".toList⟩ (by decide)).1⟩

/-- C5: for every control value `v` and whatever the rest of the state, the
change handler assigns exactly `theme=v; path=/; max-age=31536000` to the
cookie store, sets the attribute `data-bs-theme` to `v` and leaves the control
value `v`; for `v = dark` the string written is
`theme=dark; path=/; max-age=31536000`. -/
theorem changeHandler_effect (cookie : Str) (writes : List Str) (attr : Option Str)
    (v : Str) :
    changeHandler ⟨cookie, writes, attr, v⟩
      = ⟨cookie, writes ++ ["theme=".toList ++ v ++ "; path=/; max-age=31536000".toList],
          some v, v⟩ ∧
    changeHandler ⟨[], [], none, "dark".toList⟩
      = ⟨[], ["theme=dark; path=/; max-age=31536000".toList], some "dark".toList,
          "dark".toList⟩ :=
  ⟨rfl, by decide⟩

/-- C6: on well-formed cookie strings (entries `n=v` joined with `"; "`, names
and values without `=` and `;`) and for a name without `=` and `;`, two cookie
lists whose entries called `name` are the same, in the same order, give the same
`getCookie(name)`; these are exactly the lists that differ by entries of other
names inserted or removed at any positions. -/
theorem getCookie_ignores_unrelated (es es' : List (Str × Str)) (name : Str)
    (hes : ∀ e ∈ es, '=' ∉ e.1 ∧ ';' ∉ e.1 ∧ '=' ∉ e.2 ∧ ';' ∉ e.2)
    (hes' : ∀ e ∈ es', '=' ∉ e.1 ∧ ';' ∉ e.1 ∧ '=' ∉ e.2 ∧ ';' ∉ e.2)
    (hname : '=' ∉ name ∧ ';' ∉ name)
    (hsame : es.filter (fun e => decide (e.1 = name))
      = es'.filter (fun e => decide (e.1 = name))) :
    getCookie (cookieString es) name = getCookie (cookieString es') name := by
  rw [getCookie_cookieString es name (fun e he => ⟨(hes e he).1, (hes e he).2.1, (hes e he).2.2.2⟩)
        hname.1,
      getCookie_cookieString es' name
        (fun e he => ⟨(hes' e he).1, (hes' e he).2.1, (hes' e he).2.2.2⟩) hname.1,
      ← List.filter_head?, ← List.filter_head?, hsame]

/-- C6 at `a=1; theme=dark; b=2` against `theme=dark`: both give `dark`. -/
theorem getCookie_ignores_unrelated_witness :
    cookieString [("a".toList, "1".toList), ("theme".toList, "dark".toList),
      ("b".toList, "2".toList)] = "a=1; theme=dark; b=2".toList ∧
    cookieString [("theme".toList, "dark".toList)] = "theme=dark".toList ∧
    getCookie "a=1; theme=dark; b=2".toList "theme".toList
      = getCookie "theme=dark".toList "theme".toList ∧
    getCookie "theme=dark".toList "theme".toList = some "dark".toList :=
  ⟨by decide, by decide,
   getCookie_ignores_unrelated
     [("a".toList, "1".toList), ("theme".toList, "dark".toList), ("b".toList, "2".toList)]
     [("theme".toList, "dark".toList)] "theme".toList
     (by decide) (by decide) (by decide) (by decide),
   by decide⟩

/-- C7: when no row of the cookie string starts with `name=`, `getCookie(name)`
is the absent value; this covers the empty cookie string for every name, and the
cookie `themes=dark` looked up under `theme`. -/
theorem getCookie_absent :
    (∀ cookie name : Str,
      (∀ r ∈ cookieRows cookie, startsWith r (name ++ "=".toList) = false) →
      getCookie cookie name = none) ∧
    (∀ name : Str, getCookie [] name = none) ∧
    getCookie "themes=dark".toList "theme".toList = none := by
  have hgen : ∀ cookie name : Str,
      (∀ r ∈ cookieRows cookie, startsWith r (name ++ "=".toList) = false) →
      getCookie cookie name = none := by
    intro cookie name h
    unfold getCookie
    rw [findRow_none cookie name h]
  refine ⟨hgen, ?_, by decide⟩
  intro name
  apply hgen
  intro r hr
  rw [cookieRows_nil] at hr
  have hr' : r = [] := by simpa using hr
  subst hr'
  cases name <;> rfl

/-- C7 at the cookie string `a=1; themes=dark`, looked up under `theme`. -/
theorem getCookie_absent_witness :
    (∀ r ∈ cookieRows "a=1; themes=dark".toList,
      startsWith r ("theme".toList ++ "=".toList) = false) ∧
    getCookie "a=1; themes=dark".toList "theme".toList = none :=
  ⟨by decide,
   getCookie_absent.1 "a=1; themes=dark".toList "theme".toList (by decide)⟩

/-- C8: for every cookie string and every name `getCookie` is defined and gives a
string or the absent value: when a row is found, splitting it on `=` gives at
least two pieces, so index `1` is in bounds and the result is that piece, a
string; when no row is found, the result is the absent value. -/
theorem getCookie_total (cookie name : Str) :
    match findRow cookie name with
    | some row =>
      ∃ h : 1 < (split row "=".toList).length,
        getCookie cookie name = some ((split row "=".toList).get ⟨1, h⟩)
    | none => getCookie cookie name = none := by
  cases hf : findRow cookie name with
  | none =>
    show getCookie cookie name = none
    unfold getCookie
    rw [hf]
  | some row =>
    have hlen : 1 < (split row "=".toList).length := split_found_length cookie name row hf
    refine ⟨hlen, ?_⟩
    unfold getCookie
    rw [hf]
    exact List.getElem?_eq_getElem hlen

/-- C9: for a name without `=`, when some row of the cookie string starts with
`name=`, `getCookie(name)` is the text of the first such row strictly between
its first `=` and its second `=`, or the end of the row when it has one `=`. -/
theorem getCookie_between_equals (cookie name : Str) (hname : '=' ∉ name)
    (hsome : ∃ r ∈ cookieRows cookie, startsWith r (name ++ "=".toList) = true) :
    ∃ row, isFirstRow cookie name row ∧
      getCookie cookie name = some (betweenEquals row) := by
  obtain ⟨row, hf⟩ := findRow_exists cookie name hsome
  have hrow := isFirstRow_of_findRow cookie name row hf
  obtain ⟨tail, rfl⟩ := findRow_some cookie name row hf
  refine ⟨_, hrow, ?_⟩
  rw [getCookie_of_isFirstRow cookie name tail hname hrow, betweenEquals_row name tail hname]

/-- C9 at the cookie `theme=a=b`: the value read back is `a`. -/
theorem getCookie_between_equals_witness :
    '=' ∉ "theme".toList ∧
    (∃ r ∈ cookieRows "theme=a=b".toList,
      startsWith r ("theme".toList ++ "=".toList) = true) ∧
    (∃ row, isFirstRow "theme=a=b".toList "theme".toList row ∧
      getCookie "theme=a=b".toList "theme".toList = some (betweenEquals row)) ∧
    betweenEquals "theme=a=b".toList = "a".toList ∧
    getCookie "theme=a=b".toList "theme".toList = some "a".toList :=
  have hsome : ∃ r ∈ cookieRows "theme=a=b".toList,
      startsWith r ("theme".toList ++ "=".toList) = true :=
    ⟨"theme=a=b".toList, by decide, by decide⟩
  ⟨by decide, hsome,
   getCookie_between_equals "theme=a=b".toList "theme".toList (by decide) hsome,
   by decide, by decide⟩

/-- C10: after the load handler the attribute `data-bs-theme` is a non-empty
string, either the non-empty value `getCookie("theme")` returned or `light`; when
`getCookie("theme")` is the empty string (as for the row `theme=`) the attribute
is `light` and the value of `#changeTheme` is unchanged; the handler assigns
nothing to the cookie store and the cookie string is as before. -/
theorem loadHandler_attribute_nonempty (st : Page) :
    (∃ t : Str, (loadHandler st).dataBsTheme = some t ∧ t ≠ [] ∧
      (getCookie st.cookie "theme".toList = some t ∨ t = "light".toList)) ∧
    (getCookie st.cookie "theme".toList = some [] →
      (loadHandler st).dataBsTheme = some "light".toList ∧
      (loadHandler st).changeThemeValue = st.changeThemeValue) ∧
    getCookie "theme=".toList "theme".toList = some [] ∧
    (loadHandler st).cookieWrites = st.cookieWrites ∧
    (loadHandler st).cookie = st.cookie := by
  cases hg : getCookie st.cookie "theme".toList with
  | none =>
    rw [loadHandler_of_none st hg]
    exact ⟨⟨"light".toList, rfl, by decide, Or.inr rfl⟩, (fun h => nomatch h), by decide,
      rfl, rfl⟩
  | some t =>
    cases t with
    | nil =>
      rw [loadHandler_of_empty st hg]
      exact ⟨⟨"light".toList, rfl, by decide, Or.inr rfl⟩, fun _ => ⟨rfl, rfl⟩, by decide,
        rfl, rfl⟩
    | cons c v =>
      rw [loadHandler_of_value st c v hg]
      exact ⟨⟨c :: v, rfl, by simp, Or.inl rfl⟩, (fun h => nomatch h), by decide, rfl, rfl⟩

/-- C10 at the cookie `theme=` with the control showing `dark`. -/
theorem loadHandler_attribute_nonempty_witness :
    getCookie "theme=".toList "theme".toList = some [] ∧
    (loadHandler ⟨"theme=".toList, [], none, "dark".toList⟩).dataBsTheme
      = some "light".toList ∧
    (loadHandler ⟨"theme=".toList, [], none, "dark".toList⟩).changeThemeValue
      = "dark".toList :=
  ⟨by decide,
   (loadHandler_attribute_nonempty ⟨"theme=".toList, [], none, "dark".toList⟩).2.1
     (by decide)⟩

end Bookforge
